import Mathlib

/-!
# Verification of the `commonplace` indexing and search core

A shallow embedding, in Lean 4, of the core algorithms of the `commonplace`
note-management tool:

* the Markdown chunker (`src/commonplace/_search/_chunker.py`,
  `MarkdownChunker.chunk` and `MarkdownChunker._split_if_needed`),
* the version resolver (`src/commonplace/_repo.py`,
  `Commonplace.make_repo_path` and `Commonplace._build_path_commit_map`),
* the reciprocal-rank-fusion score computation
  (`src/commonplace/_search/_sqlite.py`, `SQLiteSearchIndex.search_hybrid`),
* the brute-force semantic-search ranking
  (`src/commonplace/_search/_sqlite.py`, `SQLiteSearchIndex._search_by_embedding`),
* the incremental-indexing work-set selection
  (`src/commonplace/_search/_commands.py`, `index`) together with the row
  insertion of `SQLiteVectorStore.add` (`src/commonplace/_search/_store.py`),
* the content-addressed blob store (modelled from the spec; the
  implementation of `store_blob`/`_hash_file` is not present in the sources,
  only its tests are).

Python strings are modelled as `List Char` (ASCII whitespace stands in for
Python's whitespace classes), Python `int` as `Int` (`Nat` where the source
value is provably non-negative), Python `float` scores as `ℚ` (exact
arithmetic in place of IEEE 754; none of the verified claims concerns
rounding), and fallible Python code as `Option`/`Except`.
-/

/-! ## Python string primitives -/

/-- Python's whitespace test (`str.strip`, regex `\s`), restricted to the
ASCII whitespace characters (space, tab, newline, carriage return, vertical
tab, form feed). -/
def isPySpace (c : Char) : Bool :=
  c == ' ' || c == '\t' || c == '\n' || c == '\r' || c == '\x0b' || c == '\x0c'

/-- Python `content.split("\n")`: splitting on every newline, producing one
more part than there are newlines (so `"".split("\n") == [""]`). -/
def pySplit : List Char → List (List Char)
  | [] => [[]]
  | c :: rest =>
    if c = '\n' then [] :: pySplit rest
    else
      match pySplit rest with
      | [] => [[c]]
      | l :: ls => (c :: l) :: ls

/-- Python `"\n".join(lines)`. -/
def joinLines : List (List Char) → List Char
  | [] => []
  | [l] => l
  | l :: ls => l ++ '\n' :: joinLines ls

/-- Python `sep.join(parts)` for an arbitrary separator. -/
def joinSep (sep : List Char) : List (List Char) → List Char
  | [] => []
  | [l] => l
  | l :: ls => l ++ sep ++ joinSep sep ls

/-- Python `s.strip()`: drop whitespace from both ends. -/
def pyStrip (s : List Char) : List Char :=
  ((s.dropWhile isPySpace).reverse.dropWhile isPySpace).reverse

/-- Python `s.rfind(c)` for a single character: index of the last occurrence,
`-1` when absent. -/
def rfindChar (s : List Char) (c : Char) : Int :=
  match s.reverse.findIdx? (· == c) with
  | some i => ((s.length - 1 - i : ℕ) : Int)
  | none => -1

/-- Clamp a Python slice index into `[0, len]` (negative indices count from
the end, exactly as in CPython's slice normalisation). -/
def pyIdx (len : ℕ) (i : Int) : ℕ :=
  if i < 0 then (i + len).toNat else min i.toNat len

/-- Python `s[a:b]`. -/
def pySlice (s : List Char) (a b : Int) : List Char :=
  (s.drop (pyIdx s.length a)).take (pyIdx s.length b - pyIdx s.length a)

/-! ## The header regex

`MarkdownChunker.chunk` recognises header lines with
`re.match(r"^(#{1,6})\s+(.+?)(?:\s+\[.*\])?$", line)` and uses the hash count
(group 1) and the heading text (group 2).  The functions below implement the
backtracking semantics of that regex on newline-free lines (the chunker only
ever applies it to the parts of a `split("\n")`). -/

/-- Does `s` match `\s+\[.*\]` anchored at both ends?  (`.` does not match a
newline.) -/
def annotTail (s : List Char) : Bool :=
  let ws := s.takeWhile isPySpace
  !ws.isEmpty &&
    (match s.drop ws.length with
     | '[' :: rest => !rest.isEmpty && (rest.getLast? == some ']') && !rest.dropLast.contains '\n'
     | _ => false)

/-- Does `s` match `(?:\s+\[.*\])?` anchored at both ends? -/
def annotSuffix (s : List Char) : Bool :=
  s.isEmpty || annotTail s

/-- The non-greedy group `(.+?)` followed by `(?:\s+\[.*\])?$`: the shortest
non-empty prefix whose remainder matches the optional bracketed annotation. -/
def findGroup2 (acc : List Char) : List Char → Option (List Char)
  | [] => none
  | c :: t =>
    if c = '\n' then none
    else if annotSuffix t then some (acc ++ [c])
    else findGroup2 (acc ++ [c]) t

/-- The full header match `re.match(r"^(#{1,6})\s+(.+?)(?:\s+\[.*\])?$", line)`, returning
`(len(group(1)), group(2))` on a match. -/
def headerMatch (line : List Char) : Option (ℕ × List Char) :=
  let k := (line.takeWhile (· == '#')).length
  if k = 0 ∨ 6 < k then none
  else
    let after := line.drop k
    let ws := after.takeWhile isPySpace
    let m := ws.length
    if m = 0 then none
    else
      match after.drop m with
      | [] => if 2 ≤ m then some (k, ws.drop (m - 1)) else none
      | rest => (findGroup2 [] rest).map fun g2 => (k, g2)

/-! ## The chunker

`Chunk` mirrors `commonplace._search._types.Chunk`; the `repo_path` identity
field plays no role in the chunking algorithm itself and is represented by
the `stem` parameter (`note.repo_path.path.stem`, used as the fallback
section label).  The Python attribute `section` is called `sectionLabel`
here (`section` is a Lean keyword).  `offset` is a Python `int`. -/

structure Chunk where
  text : List Char
  sectionLabel : List Char
  offset : Int
deriving DecidableEq, Repr

/-- The `while current_pos < len(chunk_text)` loop of
`MarkdownChunker._split_if_needed`, with explicit fuel: `none` means the
fuel ran out.  (With fuel `len + 2` the loop either terminates within the
fuel or repeats a cursor position and hence never terminates; see
`splitLoop_fixpoint_diverges` and `splitLoop_isSome_of_small_overlap`.) -/
def splitLoop (maxC ovC : ℕ) (sectionLabel chunkText : List Char) (startOffset : ℕ) :
    ℕ → Int → Option (List Chunk)
  | 0, _ => none
  | fuel + 1, currentPos =>
    if currentPos < (chunkText.length : Int) then
      let endPos := currentPos + (maxC : Int)
      let sub := pySlice chunkText currentPos endPos
      let cut :=
        if endPos < (chunkText.length : Int) then
          let lastBreak := max (rfindChar sub ' ') (rfindChar sub '\n')
          if (maxC : Int) / 2 < lastBreak then (pySlice sub 0 lastBreak, currentPos + lastBreak)
          else (sub, endPos)
        else (sub, endPos)
      let c : Chunk := ⟨pyStrip cut.1, sectionLabel, (startOffset : Int) + currentPos⟩
      let nextPos := if cut.2 < (chunkText.length : Int) then cut.2 - (ovC : Int) else cut.2
      match splitLoop maxC ovC sectionLabel chunkText startOffset fuel nextPos with
      | none => none
      | some cs => some (c :: cs)
    else some []

/-- The `(sub_chunk, end_pos)` pair one iteration of the splitting loop
computes (named here so the loop body can be reasoned about piecewise; it is
definitionally the `cut` of `splitLoop`). -/
def cutF (maxC : ℕ) (chunkText : List Char) (pos : Int) : List Char × Int :=
  let endPos := pos + (maxC : Int)
  let sub := pySlice chunkText pos endPos
  if endPos < (chunkText.length : Int) then
    let lastBreak := max (rfindChar sub ' ') (rfindChar sub '\n')
    if (maxC : Int) / 2 < lastBreak then (pySlice sub 0 lastBreak, pos + lastBreak)
    else (sub, endPos)
  else (sub, endPos)

/-- The cursor position the splitting loop advances to
(`current_pos = end_pos - overlap_chars if end_pos < len(chunk_text) else end_pos`). -/
def nextPosF (maxC ovC : ℕ) (chunkText : List Char) (pos : Int) : Int :=
  if (cutF maxC chunkText pos).2 < (chunkText.length : Int) then
    (cutF maxC chunkText pos).2 - (ovC : Int)
  else (cutF maxC chunkText pos).2

/-- Embedding of `MarkdownChunker._split_if_needed`. -/
def split_if_needed (maxC ovC : ℕ) (stem : List Char) (sectionStack : List (List Char))
    (textLines : List (List Char)) (startOffset : ℕ) : Option (List Chunk) :=
  let sectionLabel := if sectionStack.isEmpty then stem else joinSep [' ', '/', ' '] sectionStack
  let chunkText := pyStrip (joinLines textLines)
  if chunkText.length ≤ maxC then some [⟨chunkText, sectionLabel, (startOffset : Int)⟩]
  else splitLoop maxC ovC sectionLabel chunkText startOffset (chunkText.length + 2) 0

/-- The flush guard `if current_text and any(t.strip() for t in current_text)`. -/
def anyNonBlank (textLines : List (List Char)) : Bool :=
  !textLines.isEmpty && textLines.any fun t => !(pyStrip t).isEmpty

/-- The line loop of `MarkdownChunker.chunk`, over the remaining lines and
the running state `(current_section, current_text, chunk_start_offset,
offset)`. -/
def chunkGo (maxC ovC : ℕ) (stem : List Char) :
    List (List Char) → List (List Char) → List (List Char) → ℕ → ℕ → Option (List Chunk)
  | [], currentSection, currentText, chunkStart, _offset =>
    if anyNonBlank currentText then
      split_if_needed maxC ovC stem currentSection currentText chunkStart
    else some []
  | line :: rest, currentSection, currentText, chunkStart, offset =>
    match headerMatch line with
    | some kg =>
      let flushed :=
        if anyNonBlank currentText then
          split_if_needed maxC ovC stem currentSection currentText chunkStart
        else some []
      match flushed with
      | none => none
      | some cs =>
        match chunkGo maxC ovC stem rest (currentSection.take (kg.1 - 1) ++ [pyStrip kg.2]) []
            offset (offset + line.length + 1) with
        | none => none
        | some cs2 => some (cs ++ cs2)
    | none => chunkGo maxC ovC stem rest currentSection (currentText ++ [line]) chunkStart
        (offset + line.length + 1)

/-- Embedding of `MarkdownChunker.chunk` (applied to `note.content`, with
`stem = note.repo_path.path.stem`).  `none` marks non-termination of the
size-splitting loop. -/
def chunk (maxC ovC : ℕ) (stem content : List Char) : Option (List Chunk) :=
  chunkGo maxC ovC stem (pySplit content) [] [] 0 0

/-- Characters of a string literal, for readable concrete inputs. -/
def lchars (s : String) : List Char := s.data

/-- The text `t` occurs in `s` as a contiguous block starting at index `i`. -/
def occursAt (t s : List Char) (i : ℕ) : Prop :=
  ∃ pre post, s = pre ++ t ++ post ∧ pre.length = i

/-- Does some prefix of `s` strip (à la Python `str.strip`) to exactly `t`? -/
def startsWithStripOf (s t : List Char) : Bool :=
  (List.range (s.length + 1)).any fun n => pyStrip (s.take n) == t

/-- The spec sentence "`document.content[chunk.offset:]` starts with the
exact source text the chunk was derived from", made decidable under its two
possible readings: the content from the offset onward starts with the
chunk's text itself, or it starts with a source region whose
whitespace-strip is the chunk's text. -/
def chunkSourceFaithful (content : List Char) (c : Chunk) : Bool :=
  let d := c.offset.toNat
  ((content.drop d).take c.text.length == c.text) || startsWithStripOf (content.drop d) c.text

/-! ## The version resolver

`Commonplace.make_repo_path` and `Commonplace._build_path_commit_map`
(`src/commonplace/_repo.py`).  The git backend is modelled by a linear
commit history, newest first, each commit carrying a flat tree mapping
paths to blob identifiers; the last element of the list is the parentless
initial commit.  `pygit2.Repository.status_file` is modelled by a function
into `Option FileStatus` (`none` stands for the `KeyError` it raises on an
unknown path), and `diff(parent, commit).deltas` by the set of paths whose
blob differs between the two trees. -/

structure GCommit where
  id : String
  tree : List (String × String)
deriving DecidableEq, Repr

/-- Tree lookup: the blob identifier stored for `p`, if any. -/
def treeGet (t : List (String × String)) (p : String) : Option String :=
  (t.find? fun e => e.1 == p).map fun e => e.2

/-- The paths present in a tree (`walk_tree` in the source). -/
def treeKeys (t : List (String × String)) : List String :=
  t.map fun e => e.1

/-- The walk of `_build_path_commit_map`: for each commit (newest first),
attribute every still-unattributed path whose blob differs from the primary
parent's tree (or every remaining path, at the parentless initial commit),
and stop early once nothing remains. -/
def bpcmGo : List GCommit → List String → List (String × String)
  | [], _ => []
  | c :: rest, remaining =>
    if remaining.isEmpty then []
    else
      match rest with
      | [] => remaining.map fun p => (p, c.id)
      | parent :: _ =>
        (remaining.filter fun p => !(treeGet parent.tree p == treeGet c.tree p)).map
            (fun p => (p, c.id)) ++
          bpcmGo rest (remaining.filter fun p => treeGet parent.tree p == treeGet c.tree p)

/-- Embedding of `Commonplace._build_path_commit_map`: the full path-to-commit map for a
history (empty when the head is unborn). -/
def build_path_commit_map (hist : List GCommit) : List (String × String) :=
  match hist with
  | [] => []
  | head :: _ => bpcmGo hist (treeKeys head.tree)

/-- The `pygit2` file status, collapsed to the only distinction the source makes:
`flags != FileStatus.CURRENT`. -/
inductive FileStatus where
  | current
  | dirty
deriving DecidableEq, Repr

/-- The state `make_repo_path` reads: the commit history (newest first) and
the working-tree status of each path (`none` models the `KeyError` raised by
`status_file` for a path git knows nothing about). -/
structure RepoState where
  hist : List GCommit
  status : String → Option FileStatus

/-- The head token `str(self.git.head.target)`. -/
def headRef (hist : List GCommit) : String :=
  match hist with
  | [] => ""
  | c :: _ => c.id

/-- Embedding of `commonplace._types.RepoPath`. -/
structure RepoPath where
  path : String
  ref : String
deriving DecidableEq, Repr

/-- Embedding of `Commonplace.make_repo_path`, with the path-to-commit map computed for
the current head (the code path taken on the first resolution in a process;
the `lru_cache` layer is modelled separately by `make_repo_path_cached`). -/
def make_repo_path (st : RepoState) (p : String) : RepoPath :=
  let head := headRef st.hist
  match st.status p with
  | none => ⟨p, head⟩
  | some .dirty => ⟨p, head⟩
  | some .current => ⟨p, ((build_path_commit_map st.hist).lookup p).getD head⟩

/-- The specification-side notion "the commit that last changed the path's
content": the newest commit whose tree differs from its parent's at `p`, or
the initial commit when `p` has been unchanged since it; `none` when `p`
never appears. -/
def lastChange : List GCommit → String → Option String
  | [], _ => none
  | [c], p => if (treeGet c.tree p).isSome then some c.id else none
  | c :: parent :: rest, p =>
    if treeGet parent.tree p = treeGet c.tree p then lastChange (parent :: rest) p
    else some c.id

/-! ### The process-wide cache

`_build_path_commit_map` is wrapped in `functools.lru_cache(maxsize=1)` whose
only key is `repo_dir` — the head commit is *not* part of the key, and
`Commonplace.commit` never touches the cache.  For a single repository the
cache is therefore an `Option` holding the first map ever computed. -/

structure ProcState where
  repo : RepoState
  cachedMap : Option (List (String × String))

/-- The function `make_repo_path` as executed against the `lru_cache`d
`_build_path_commit_map`: a cached map is reused no matter what the current
head is. -/
def make_repo_path_cached (ps : ProcState) (p : String) : RepoPath × ProcState :=
  let head := headRef ps.repo.hist
  match ps.repo.status p with
  | none => (⟨p, head⟩, ps)
  | some .dirty => (⟨p, head⟩, ps)
  | some .current =>
    let m :=
      match ps.cachedMap with
      | some m => m
      | none => build_path_commit_map ps.repo.hist
    (⟨p, (m.lookup p).getD head⟩, { ps with cachedMap := some m })

/-- Embedding of `Commonplace.commit`: a new head commit is created (here: prepended, with
the new working-tree statuses), and — as in the source — the memoised
path-to-commit map is left untouched. -/
def commitOp (ps : ProcState) (c : GCommit) (newStatus : String → Option FileStatus) :
    ProcState :=
  { repo := { hist := c :: ps.repo.hist, status := newStatus }, cachedMap := ps.cachedMap }

/-- The function `make_repo_path` with the outcome of the pygit2 history walk made
explicit: `walk` is `.error e` when walking the commit graph raises (for
example on corrupt repository state).  The source wraps only `status_file`
in a `try`/`except`; the call `self._build_path_commit_map(...)` has no
handler, so a raised error propagates to the caller. -/
def make_repo_path_walk (walk : Except String (List (String × String)))
    (st : RepoState) (p : String) : Except String RepoPath :=
  let head := headRef st.hist
  match st.status p with
  | none => .ok ⟨p, head⟩
  | some .dirty => .ok ⟨p, head⟩
  | some .current =>
    match walk with
    | .error e => .error e
    | .ok m => .ok ⟨p, (m.lookup p).getD head⟩

/-! ## Reciprocal rank fusion

`SQLiteSearchIndex.search_hybrid` (`src/commonplace/_search/_sqlite.py`):
the keyword and semantic hit lists are collaborator outputs and enter the
model as the lists themselves; the fusion keys each hit by
`(str(chunk.repo_path.path), chunk.offset)` and accumulates
`1.0 / (k + rank)` into a dictionary defaulting to `0.0` (scores in `ℚ`).
Only the score accumulation is modelled; the final sort and truncation do
not bear on the fused-score claims. -/

structure HChunk where
  path : String
  offset : Int
  text : List Char
deriving DecidableEq, Repr

/-- The function `chunk_key` in `search_hybrid`. -/
def chunk_key (c : HChunk) : String × Int := (c.path, c.offset)

/-- One `for rank, hit in enumerate(result_set, 1)` loop:
`rrf_scores[key] = rrf_scores.get(key, 0.0) + 1.0 / (k + rank)`. -/
def rrfAdd (k : ℕ) : List HChunk → ℕ → ((String × Int) → ℚ) → (String × Int) → ℚ
  | [], _, scores => scores
  | h :: t, rank, scores =>
    rrfAdd k t (rank + 1) fun key =>
      if key = chunk_key h then scores key + 1 / ((k : ℚ) + rank) else scores key

/-- The fused score table of `search_hybrid`: both result lists folded into
the dictionary, starting from the empty (all-zero) table. -/
def rrfScores (k : ℕ) (keywordResults semanticResults : List HChunk) : (String × Int) → ℚ :=
  rrfAdd k semanticResults 1 (rrfAdd k keywordResults 1 fun _ => 0)

/-- Specification-side sum of the `1/(k+rank)` contributions a key receives
from one list (rank counting from `rank₀`). -/
def rrfContrib (k : ℕ) : List HChunk → ℕ → (String × Int) → ℚ
  | [], _, _ => 0
  | h :: t, rank, key =>
    (if key = chunk_key h then 1 / ((k : ℚ) + rank) else 0) + rrfContrib k t (rank + 1) key

/-! ## Semantic search

`SQLiteSearchIndex._search_by_embedding`: select the rows of the active
model, score every one of them against the query embedding, order by score
descending and keep the first `limit`.  The numpy float cosine is modelled
by an abstract rational-valued similarity `cos` (the ranking and truncation
structure is independent of the score values, and no verified claim concerns
floating-point rounding); `np.argsort(...)[ : : -1][ : limit]` becomes an
insertion sort by descending score followed by `take limit`. -/

structure IdxRow where
  model_id : String
  path : String
  ref : String
  sectionLabel : String
  text : String
  offset : Int
  embedding : List ℚ
deriving DecidableEq

/-- Embedding of `commonplace._search._types.SearchHit` for the SQLite index. -/
structure IdxHit where
  row : IdxRow
  score : ℚ
deriving DecidableEq

/-- Insert one scored row into a list sorted by descending score. -/
def insertByScoreDesc (x : IdxRow × ℚ) : List (IdxRow × ℚ) → List (IdxRow × ℚ)
  | [] => [x]
  | y :: t => if y.2 ≤ x.2 then y :: insertByScoreDesc x t else x :: y :: t

/-- Order scored rows by descending score. -/
def sortByScoreDesc : List (IdxRow × ℚ) → List (IdxRow × ℚ)
  | [] => []
  | x :: t => insertByScoreDesc x (sortByScoreDesc t)

/-- Embedding of `SQLiteSearchIndex._search_by_embedding`. -/
def search_by_embedding (cos : List ℚ → List ℚ → ℚ) (rows : List IdxRow) (modelId : String)
    (queryEmbedding : List ℚ) (limit : ℕ) : List IdxHit :=
  let sel := rows.filter fun r => r.model_id == modelId
  if sel.isEmpty then []
  else
    let scored := sel.map fun r => (r, cos queryEmbedding r.embedding)
    ((sortByScoreDesc scored).take limit).map fun rc => ⟨rc.1, rc.2⟩

/-- Embedding of `SQLiteSearchIndex.search_semantic`: embed the query, then search by the
resulting vector. -/
def search_semantic (cos : List ℚ → List ℚ → ℚ) (embed : String → List ℚ)
    (rows : List IdxRow) (modelId : String) (query : String) (limit : ℕ) : List IdxHit :=
  search_by_embedding cos rows modelId (embed query) limit

/-! ## The incremental indexing command

`index` in `src/commonplace/_search/_commands.py` drives the store from
`src/commonplace/_search/_store.py` (`SQLiteVectorStore`).  That store's
`chunks` table has no uniqueness constraint and `add` is a plain `INSERT`;
its `get_indexed_paths` returns a Python `set[str]` of distinct paths.  The
caller in `_commands.py`, however, treats the returned value as a
`dict[str, set[str]]` mapping paths to indexed refs and calls `.get` on it —
an `AttributeError` in CPython, modelled by the small dynamic-value type
below.  (The same caller also passes an `embedder=` keyword to
`SQLiteVectorStore.__init__`, which accepts none — a `TypeError` raised even
earlier; the model exhibits the first failure inside the selection loop.) -/

structure VSRow where
  path : String
  sectionLabel : String
  text : String
  offset : Int
  embedding : List ℚ
deriving DecidableEq

/-- Embedding of `SQLiteVectorStore.add`: `INSERT INTO chunks ...` — always appends a row,
there is no key and no replacement. -/
def vsAdd (rows : List VSRow) (r : VSRow) : List VSRow := rows ++ [r]

/-- Embedding of `SQLiteVectorStore.get_indexed_paths`: `SELECT DISTINCT path FROM chunks`,
returned as a set of path strings. -/
def vsGetIndexedPaths (rows : List VSRow) : List String :=
  (rows.map fun r => r.path).dedup

/-- The dynamic type of the value `index` binds to `indexed_refs`: what the
store actually returns (`strSet`) versus what the caller assumes
(`refDict`). -/
inductive PyIndexedPaths where
  | strSet (paths : List String)
  | refDict (entries : List (String × List String))

/-- The attribute access `indexed_refs.get(path_str, set())`: defined on a
dict, an `AttributeError` on a set. -/
def pyDictGet (v : PyIndexedPaths) (key : String) (dflt : List String) :
    Except String (List String) :=
  match v with
  | .strSet _ => .error "AttributeError: set object has no attribute get"
  | .refDict es => .ok ((es.lookup key).getD dflt)

/-- The incremental work-set selection of `index` (`rebuild=False` branch):
for every note `(path, ref)`, keep it unless `ref` is among the refs the
store reports for `path` — executed against the value `get_indexed_paths`
really returns. -/
def notesToIndex (rows : List VSRow) (notes : List (String × String)) :
    Except String (List (String × String)) :=
  notes.foldlM
    (fun acc note => do
      let indexedAt ← pyDictGet (.strSet (vsGetIndexedPaths rows)) note.1 []
      pure (if note.2 ∈ indexedAt then acc else acc ++ [note]))
    []

/-! ## The blob store

Modelled from the spec: the implementations of `Commonplace.store_blob` and
`_hash_file` are not present under the sources (only `tests/test_blobs.py`
references them).  Spec §4.5: "given raw bytes, compute a content digest,
store once under a path derived from the digest, and return that path; a
second store of identical content returns the same path without duplicating
storage". -/

structure BlobStore where
  digests : List (List Char)
deriving DecidableEq, Repr

/-- Modelled from the spec: `store_blob` — compute the digest of the raw
bytes, store the content once under a path derived from the digest alone,
and return that path.  The digest function is a parameter of the model. -/
def store_blob (digest : List ℕ → List Char) (st : BlobStore) (content : List ℕ) :
    BlobStore × List Char :=
  let d := digest content
  (⟨if d ∈ st.digests then st.digests else st.digests ++ [d]⟩, lchars "blobs/" ++ d)

/-! # Theorems -/

/-! ## C5 — the worked chunking example -/

/-- C5: chunking `"# Title\n\nIntro.\n\n## Section\n\nBody."` with the default
size parameters (`max_chunk_chars = 1024`, `overlap_chars = 200`) yields
exactly two chunks: section `"Title"`, text `"Intro."`, offset `0`, and
section `"Title / Section"`, text `"Body."`, offset `17`. -/
theorem c5_chunk_example :
    chunk 1024 200 (lchars "note") (lchars "# Title\n\nIntro.\n\n## Section\n\nBody.") =
      some [⟨lchars "Intro.", lchars "Title", 0⟩,
            ⟨lchars "Body.", lchars "Title / Section", 17⟩] := by
  decide

/-! ## C4 — reciprocal rank fusion -/

theorem rrfAdd_eq (k : ℕ) (l : List HChunk) :
    ∀ (rank : ℕ) (scores : (String × Int) → ℚ) (key : String × Int),
      rrfAdd k l rank scores key = scores key + rrfContrib k l rank key := by
  induction l with
  | nil => intro rank scores key; simp [rrfAdd, rrfContrib]
  | cons h t ih =>
    intro rank scores key
    simp only [rrfAdd, rrfContrib]
    rw [ih]
    by_cases hk : key = chunk_key h
    · simp only [if_pos hk]; ring
    · simp only [if_neg hk]; ring

theorem rrfContrib_nonneg (k : ℕ) (l : List HChunk) :
    ∀ (rank : ℕ) (key : String × Int), 0 ≤ rrfContrib k l rank key := by
  induction l with
  | nil => intro rank key; simp [rrfContrib]
  | cons h t ih =>
    intro rank key
    simp only [rrfContrib]
    have h1 : (0 : ℚ) ≤ if key = chunk_key h then 1 / ((k : ℚ) + rank) else 0 := by
      split
      · positivity
      · exact le_refl 0
    have h2 := ih (rank + 1) key
    linarith

theorem rrfContrib_pos (k : ℕ) (l : List HChunk) :
    ∀ (rank : ℕ) (key : String × Int), 1 ≤ rank → key ∈ l.map chunk_key →
      0 < rrfContrib k l rank key := by
  induction l with
  | nil => intro rank key _ hmem; simp at hmem
  | cons h t ih =>
    intro rank key hrank hmem
    simp only [rrfContrib]
    have hsplit : key = chunk_key h ∨ key ∈ t.map chunk_key := by
      rcases List.mem_map.mp hmem with ⟨a, ha, hak⟩
      rcases List.mem_cons.mp ha with rfl | hat
      · exact Or.inl hak.symm
      · exact Or.inr (List.mem_map.mpr ⟨a, hat, hak⟩)
    rcases hsplit with hk | hk
    · have hr : (1 : ℚ) ≤ (rank : ℚ) := by exact_mod_cast hrank
      have hk0 : (0 : ℚ) ≤ (k : ℚ) := Nat.cast_nonneg k
      have hkq : (0 : ℚ) < (k : ℚ) + rank := by linarith
      have hpos : (0 : ℚ) < 1 / ((k : ℚ) + rank) := one_div_pos.mpr hkq
      have h2 := rrfContrib_nonneg k t (rank + 1) key
      rw [if_pos hk]
      linarith
    · have h2 := ih (rank + 1) key (by omega) hk
      have h1 : (0 : ℚ) ≤ if key = chunk_key h then 1 / ((k : ℚ) + rank) else 0 := by
        split
        · positivity
        · exact le_refl 0
      linarith

/-- C4: a chunk identity present in both the keyword and the semantic
candidate list receives a fused score equal to the sum of its `1/(k+rank)`
contributions from the two lists, and that sum strictly exceeds the score
the fusion would assign it from either list alone. -/
theorem c4_hybrid_fused_score (k : ℕ) (kw sem : List HChunk) (key : String × Int)
    (h1 : key ∈ kw.map chunk_key) (h2 : key ∈ sem.map chunk_key) :
    rrfScores k kw sem key = rrfScores k kw [] key + rrfScores k [] sem key ∧
    rrfScores k kw [] key < rrfScores k kw sem key ∧
    rrfScores k [] sem key < rrfScores k kw sem key := by
  have ekw : rrfScores k kw [] key = rrfContrib k kw 1 key := by
    simp [rrfScores, rrfAdd, rrfAdd_eq]
  have esem : rrfScores k [] sem key = rrfContrib k sem 1 key := by
    simp [rrfScores, rrfAdd, rrfAdd_eq]
  have eboth : rrfScores k kw sem key = rrfContrib k kw 1 key + rrfContrib k sem 1 key := by
    simp [rrfScores, rrfAdd_eq]
  have pkw := rrfContrib_pos k kw 1 key (le_refl 1) h1
  have psem := rrfContrib_pos k sem 1 key (le_refl 1) h2
  refine ⟨by rw [eboth, ekw, esem], ?_, ?_⟩
  · rw [eboth, ekw]; linarith
  · rw [eboth, esem]; linarith

/-- C4 witness: a concrete pair of candidate lists sharing the chunk
identity `("notes/a.md", 0)`. -/
theorem c4_hybrid_fused_score_witness :
    (("notes/a.md", (0 : Int)) ∈
        [(⟨"notes/a.md", 0, lchars "alpha"⟩ : HChunk)].map chunk_key) ∧
    (("notes/a.md", (0 : Int)) ∈
        [(⟨"notes/b.md", 3, lchars "beta"⟩ : HChunk),
         (⟨"notes/a.md", 0, lchars "alpha"⟩ : HChunk)].map chunk_key) ∧
    (rrfScores 60 [⟨"notes/a.md", 0, lchars "alpha"⟩]
        [⟨"notes/b.md", 3, lchars "beta"⟩, ⟨"notes/a.md", 0, lchars "alpha"⟩]
        ("notes/a.md", 0) =
      rrfScores 60 [⟨"notes/a.md", 0, lchars "alpha"⟩] [] ("notes/a.md", 0) +
        rrfScores 60 [] [⟨"notes/b.md", 3, lchars "beta"⟩, ⟨"notes/a.md", 0, lchars "alpha"⟩]
          ("notes/a.md", 0) ∧
      rrfScores 60 [⟨"notes/a.md", 0, lchars "alpha"⟩] [] ("notes/a.md", 0) <
        rrfScores 60 [⟨"notes/a.md", 0, lchars "alpha"⟩]
          [⟨"notes/b.md", 3, lchars "beta"⟩, ⟨"notes/a.md", 0, lchars "alpha"⟩]
          ("notes/a.md", 0) ∧
      rrfScores 60 [] [⟨"notes/b.md", 3, lchars "beta"⟩, ⟨"notes/a.md", 0, lchars "alpha"⟩]
          ("notes/a.md", 0) <
        rrfScores 60 [⟨"notes/a.md", 0, lchars "alpha"⟩]
          [⟨"notes/b.md", 3, lchars "beta"⟩, ⟨"notes/a.md", 0, lchars "alpha"⟩]
          ("notes/a.md", 0)) :=
  ⟨by decide, by decide,
    c4_hybrid_fused_score 60 [⟨"notes/a.md", 0, lchars "alpha"⟩]
      [⟨"notes/b.md", 3, lchars "beta"⟩, ⟨"notes/a.md", 0, lchars "alpha"⟩]
      ("notes/a.md", 0) (by decide) (by decide)⟩

/-! ## C10 — semantic search returns `min limit N` hits -/

theorem length_insertByScoreDesc (x : IdxRow × ℚ) (l : List (IdxRow × ℚ)) :
    (insertByScoreDesc x l).length = l.length + 1 := by
  induction l with
  | nil => simp [insertByScoreDesc]
  | cons y t ih =>
    simp only [insertByScoreDesc]
    split <;> simp [ih]

theorem length_sortByScoreDesc (l : List (IdxRow × ℚ)) :
    (sortByScoreDesc l).length = l.length := by
  induction l with
  | nil => rfl
  | cons x t ih => simp [sortByScoreDesc, length_insertByScoreDesc, ih]

/-- C10: for every query string and every limit, semantic search over an
index holding `N` stored chunks for the active model returns exactly
`min limit N` hits — every stored chunk of the active model is scored and
only the truncation to `limit` filters the results, whatever the similarity
function and the query embedding are. -/
theorem c10_search_semantic_length (cos : List ℚ → List ℚ → ℚ) (embed : String → List ℚ)
    (rows : List IdxRow) (modelId : String) (query : String) (limit : ℕ) :
    (search_semantic cos embed rows modelId query limit).length =
      min limit (rows.filter fun r => r.model_id == modelId).length := by
  unfold search_semantic search_by_embedding
  by_cases h : (rows.filter fun r => r.model_id == modelId).isEmpty
  · rw [List.isEmpty_iff] at h
    simp [h]
  · simp only [h, if_neg, Bool.false_eq_true, not_false_iff, if_false]
    simp [List.length_take, length_sortByScoreDesc]

/-! ## C1 — the incremental indexing command cannot re-run -/

/-- C1 (code bug): on any store holding at least one row and any non-empty
note list, the incremental work-set selection of `index` fails with an
`AttributeError` — `SQLiteVectorStore.get_indexed_paths` returns a set of
path strings while the caller calls `.get` on it as if it were a dict — so a
second indexing run never completes normally; and the cited
`SQLiteVectorStore.add` is a plain `INSERT` that always grows the table by
one row (no upsert), shown here on a concrete row. -/
theorem c1_incremental_index_crashes :
    notesToIndex [⟨"test.md", "Test", "Some content here.", 0, [1]⟩] [("test.md", "c1")] =
      Except.error "AttributeError: set object has no attribute get" ∧
    (vsAdd [⟨"test.md", "Test", "Some content here.", 0, [1]⟩]
        ⟨"test.md", "Test", "Some content here.", 0, [1]⟩).length = 2 :=
  ⟨rfl, rfl⟩

/-! ## C3 — the path-to-commit map cache survives a commit -/

/-- C3 (code bug): `_build_path_commit_map` is memoised by `lru_cache`
keyed on `repo_dir` alone and `Commonplace.commit` never invalidates it,
so after resolving a clean path (which warms the cache at head `c1`),
committing `c2` — which modifies that very path — and resolving again, the
resolver still answers from the map computed at the old head: it returns
`"c1"` although the current head is `"c2"` and the map recomputed for the
new head attributes the path to `"c2"`. -/
theorem c3_resolve_after_commit_uses_stale_map :
    let ps0 : ProcState :=
      ⟨⟨[⟨"c1", [("a.md", "b1")]⟩], fun _ => some FileStatus.current⟩, none⟩
    let ps1 := (make_repo_path_cached ps0 "a.md").2
    let ps2 := commitOp ps1 ⟨"c2", [("a.md", "b2")]⟩ fun _ => some FileStatus.current
    (make_repo_path_cached ps0 "a.md").1.ref = "c1" ∧
      headRef ps2.repo.hist = "c2" ∧
      (build_path_commit_map ps2.repo.hist).lookup "a.md" = some "c2" ∧
      (make_repo_path_cached ps2 "a.md").1.ref = "c1" := by
  decide

/-! ## C8 — what resolution degradation the code actually has -/

/-- C8 counterexample: when walking the history raises, `make_repo_path`
does not fall back to the head token — the only `try`/`except` in the
function guards `status_file`, so the walk's error propagates to the
caller instead of producing `RepoPath("a.md", head)`. -/
theorem c8_counterexample_walk_failure_raises :
    make_repo_path_walk (Except.error "GitError")
        ⟨[⟨"c1", [("a.md", "b1")]⟩], fun _ => some FileStatus.current⟩ "a.md" =
      Except.error "GitError" ∧
    make_repo_path_walk (Except.error "GitError")
        ⟨[⟨"c1", [("a.md", "b1")]⟩], fun _ => some FileStatus.current⟩ "a.md" ≠
      Except.ok ⟨"a.md", "c1"⟩ :=
  ⟨rfl, fun h => Except.noConfusion h⟩

/-- C8 (amended): the graceful degradations `make_repo_path` really has —
a path `status_file` knows nothing about (`KeyError`), a dirty path, and a
clean path absent from the walked map all resolve to the head token; a
failure of the history walk itself, by contrast, propagates. -/
theorem c8_degradation_without_walk_failure (st : RepoState) (p : String) :
    (st.status p = none → make_repo_path st p = ⟨p, headRef st.hist⟩) ∧
    (st.status p = some FileStatus.dirty → make_repo_path st p = ⟨p, headRef st.hist⟩) ∧
    (st.status p = some FileStatus.current →
      (build_path_commit_map st.hist).lookup p = none →
      make_repo_path st p = ⟨p, headRef st.hist⟩) := by
  refine ⟨fun h1 => ?_, fun h1 => ?_, fun h1 h2 => ?_⟩
  · simp [make_repo_path, h1]
  · simp [make_repo_path, h1]
  · simp [make_repo_path, h1, h2]

/-- C8 witness: a new, never-committed file resolves to the current head
token. -/
theorem c8_degradation_witness :
    ((fun _ => (none : Option FileStatus)) "new.md" = none) ∧
    make_repo_path ⟨[⟨"c1", [("a.md", "b1")]⟩], fun _ => none⟩ "new.md" =
      ⟨"new.md", "c1"⟩ :=
  ⟨rfl,
    (c8_degradation_without_walk_failure ⟨[⟨"c1", [("a.md", "b1")]⟩], fun _ => none⟩
        "new.md").1 rfl⟩

/-! ## C9 — the blob store is content-addressed (modelled from the spec) -/

/-- C9: storing the same bytes twice returns the identical stored path and
leaves the store unchanged (no duplicate storage), and contents with
distinct digests receive distinct stored paths — the stored path is a
function of the content digest alone. -/
theorem c9_store_blob_content_addressed (digest : List ℕ → List Char) (st : BlobStore)
    (b1 b2 : List ℕ) (hd : digest b1 ≠ digest b2) :
    (store_blob digest (store_blob digest st b1).1 b1).2 = (store_blob digest st b1).2 ∧
    (store_blob digest (store_blob digest st b1).1 b1).1 = (store_blob digest st b1).1 ∧
    (store_blob digest st b2).2 ≠ (store_blob digest st b1).2 := by
  refine ⟨rfl, ?_, ?_⟩
  · by_cases hmem : digest b1 ∈ st.digests
    · simp [store_blob, hmem]
    · simp [store_blob, hmem]
  · intro h
    exact hd (List.append_cancel_left h).symm

/-- C9 witness: a concrete injective-on-these-inputs digest and two
concrete contents. -/
theorem c9_store_blob_witness :
    ((fun b => if b = [(1 : ℕ)] then lchars "x" else lchars "y") [1] ≠
        (fun b => if b = [(1 : ℕ)] then lchars "x" else lchars "y") [2]) ∧
    ((store_blob (fun b => if b = [(1 : ℕ)] then lchars "x" else lchars "y")
          (store_blob (fun b => if b = [(1 : ℕ)] then lchars "x" else lchars "y") ⟨[]⟩ [1]).1
          [1]).2 =
        (store_blob (fun b => if b = [(1 : ℕ)] then lchars "x" else lchars "y") ⟨[]⟩ [1]).2 ∧
      (store_blob (fun b => if b = [(1 : ℕ)] then lchars "x" else lchars "y")
          (store_blob (fun b => if b = [(1 : ℕ)] then lchars "x" else lchars "y") ⟨[]⟩ [1]).1
          [1]).1 =
        (store_blob (fun b => if b = [(1 : ℕ)] then lchars "x" else lchars "y") ⟨[]⟩ [1]).1 ∧
      (store_blob (fun b => if b = [(1 : ℕ)] then lchars "x" else lchars "y") ⟨[]⟩ [2]).2 ≠
        (store_blob (fun b => if b = [(1 : ℕ)] then lchars "x" else lchars "y") ⟨[]⟩ [1]).2) :=
  ⟨by decide,
    c9_store_blob_content_addressed (fun b => if b = [(1 : ℕ)] then lchars "x" else lchars "y")
      ⟨[]⟩ [1] [2] (by decide)⟩

/-! ## C2 — resolution returns the last-changing commit -/

theorem lookup_map_const_of_mem (cid : String) {l : List String} {p : String} (hp : p ∈ l) :
    (l.map fun q => (q, cid)).lookup p = some cid :=
  List.lookup_graph (fun _ => cid) hp

theorem lookup_map_const_of_not_mem (cid : String) {l : List String} {p : String}
    (hp : p ∉ l) : (l.map fun q => (q, cid)).lookup p = none := by
  induction l with
  | nil => rfl
  | cons a t ih =>
    have hpa : p ≠ a := fun h => hp (h ▸ List.mem_cons_self a t)
    simp only [List.map_cons, List.lookup_cons, beq_false_of_ne hpa]
    exact ih fun h => hp (List.mem_cons_of_mem a h)

theorem lookup_append_of_none {l₁ l₂ : List (String × String)} {p : String}
    (h : l₁.lookup p = none) : (l₁ ++ l₂).lookup p = l₂.lookup p := by
  induction l₁ with
  | nil => rfl
  | cons e t ih =>
    obtain ⟨k, v⟩ := e
    simp only [List.lookup_cons, List.cons_append] at h ⊢
    cases hbeq : p == k
    · rw [hbeq] at h
      simp only [hbeq]
      exact ih h
    · rw [hbeq] at h
      simp at h

theorem lookup_append_of_some {l₁ l₂ : List (String × String)} {p v : String}
    (h : l₁.lookup p = some v) : (l₁ ++ l₂).lookup p = some v := by
  induction l₁ with
  | nil => simp at h
  | cons e t ih =>
    obtain ⟨k, w⟩ := e
    simp only [List.lookup_cons, List.cons_append] at h ⊢
    cases hbeq : p == k
    · rw [hbeq] at h
      simp only [hbeq]
      exact ih h
    · rw [hbeq] at h
      simpa [hbeq] using h

theorem treeGet_isSome_iff (t : List (String × String)) (p : String) :
    (treeGet t p).isSome ↔ p ∈ treeKeys t := by
  induction t with
  | nil => simp [treeGet, treeKeys]
  | cons e t ih =>
    obtain ⟨k, v⟩ := e
    by_cases hk : k = p
    · subst hk
      simp [treeGet, treeKeys, List.find?]
    · have hbeq : (k == p) = false := beq_false_of_ne hk
      simp only [treeGet, treeKeys, List.find?, List.map_cons, hbeq, List.mem_cons]
      rw [← treeGet, ← treeKeys, ih]
      constructor
      · exact Or.inr
      · rintro (h | h)
        · exact absurd h.symm hk
        · exact h

theorem lastChange_isSome (p : String) :
    ∀ (hist : List GCommit) (c : GCommit), hist.head? = some c →
      (treeGet c.tree p).isSome → (lastChange hist p).isSome := by
  intro hist
  induction hist with
  | nil => intro c h; simp at h
  | cons c0 rest ih =>
    intro c h hsome
    obtain rfl : c = c0 := by simpa using h.symm
    cases rest with
    | nil => simp [lastChange, hsome]
    | cons parent rest' =>
      by_cases hch : treeGet parent.tree p = treeGet c.tree p
      · simp only [lastChange, if_pos hch]
        exact ih parent rfl (by rw [hch]; exact hsome)
      · simp [lastChange, hch]

theorem bpcmGo_lookup (p : String) :
    ∀ (hist : List GCommit) (remaining : List String) (c : GCommit),
      hist.head? = some c → p ∈ remaining → (treeGet c.tree p).isSome →
      (bpcmGo hist remaining).lookup p = lastChange hist p := by
  intro hist
  induction hist with
  | nil => intro remaining c h; simp at h
  | cons c0 rest ih =>
    intro remaining c h hp hsome
    obtain rfl : c = c0 := by simpa using h.symm
    have hne : remaining.isEmpty = false := by
      cases remaining
      · simp at hp
      · rfl
    cases rest with
    | nil =>
      rw [show bpcmGo [c] remaining =
            if remaining.isEmpty then [] else remaining.map fun q => (q, c.id) from rfl]
      simp only [hne, Bool.false_eq_true, if_false]
      rw [lookup_map_const_of_mem c.id hp]
      simp [lastChange, hsome]
    | cons parent rest' =>
      rw [show bpcmGo (c :: parent :: rest') remaining =
            if remaining.isEmpty then []
            else
              ((remaining.filter fun q => !(treeGet parent.tree q == treeGet c.tree q)).map
                  fun q => (q, c.id)) ++
                bpcmGo (parent :: rest')
                  (remaining.filter fun q => treeGet parent.tree q == treeGet c.tree q) from rfl]
      simp only [hne, Bool.false_eq_true, if_false]
      by_cases hch : treeGet parent.tree p = treeGet c.tree p
      · have hnotin : p ∉ remaining.filter fun q => !(treeGet parent.tree q == treeGet c.tree q) := by
          simp [List.mem_filter, hch]
        have hin : p ∈ remaining.filter fun q => treeGet parent.tree q == treeGet c.tree q := by
          simp [List.mem_filter, hp, hch]
        rw [lookup_append_of_none (lookup_map_const_of_not_mem c.id hnotin)]
        rw [ih _ parent rfl hin (by rw [hch]; exact hsome)]
        simp [lastChange, hch]
      · have hin : p ∈ remaining.filter fun q => !(treeGet parent.tree q == treeGet c.tree q) := by
          simp [List.mem_filter, hp, hch]
        rw [lookup_append_of_some (lookup_map_const_of_mem c.id hin)]
        simp [lastChange, hch]

/-- C2: for a path whose working-tree copy is uncommitted (new, dirty or
staged), `make_repo_path` returns the current head token; for a clean path
present at head it returns the identifier of the commit that *last changed*
that path's content — commits that only touched other paths are skipped. -/
theorem c2_make_repo_path_last_change (st : RepoState) (p : String) (c : GCommit)
    (hhead : st.hist.head? = some c) :
    (st.status p ≠ some FileStatus.current →
      make_repo_path st p = ⟨p, headRef st.hist⟩) ∧
    (st.status p = some FileStatus.current → (treeGet c.tree p).isSome →
      ∃ r, lastChange st.hist p = some r ∧ make_repo_path st p = ⟨p, r⟩) := by
  constructor
  · intro hdirty
    unfold make_repo_path
    cases hst : st.status p with
    | none => simp
    | some fs =>
      cases fs with
      | current => exact absurd hst hdirty
      | dirty => simp
  · intro hcur hsome
    obtain ⟨rest, hrest⟩ : ∃ rest, st.hist = c :: rest := by
      cases hh : st.hist with
      | nil => rw [hh] at hhead; simp at hhead
      | cons a t =>
        rw [hh] at hhead
        obtain rfl : a = c := by simpa using hhead
        exact ⟨t, rfl⟩
    have hp : p ∈ treeKeys c.tree := (treeGet_isSome_iff _ _).mp hsome
    have hlook : (bpcmGo (c :: rest) (treeKeys c.tree)).lookup p = lastChange (c :: rest) p :=
      bpcmGo_lookup p (c :: rest) (treeKeys c.tree) c rfl hp hsome
    have hsomeLC : (lastChange (c :: rest) p).isSome :=
      lastChange_isSome p (c :: rest) c rfl hsome
    obtain ⟨r, hr⟩ := Option.isSome_iff_exists.mp hsomeLC
    refine ⟨r, by rw [hrest]; exact hr, ?_⟩
    unfold make_repo_path build_path_commit_map
    rw [hcur, hrest]
    simp only [hlook, hr, Option.getD_some]

/-- C2 witness: a three-commit history in which only the initial commit
touches `"a.md"` — the clean file resolves to the initial commit's token
(not the head token), and with a dirty status the same file resolves to the
head token. -/
theorem c2_make_repo_path_witness :
    ((⟨[⟨"c3", [("a.md", "1"), ("b.md", "2")]⟩, ⟨"c2", [("a.md", "1"), ("b.md", "1")]⟩,
        ⟨"c1", [("a.md", "1")]⟩], fun _ => some FileStatus.current⟩ : RepoState).status "a.md" =
        some FileStatus.current ∧
      (treeGet [("a.md", "1"), ("b.md", "2")] "a.md").isSome) ∧
    (∃ r,
      lastChange [⟨"c3", [("a.md", "1"), ("b.md", "2")]⟩,
          ⟨"c2", [("a.md", "1"), ("b.md", "1")]⟩, ⟨"c1", [("a.md", "1")]⟩] "a.md" = some r ∧
      make_repo_path
          ⟨[⟨"c3", [("a.md", "1"), ("b.md", "2")]⟩, ⟨"c2", [("a.md", "1"), ("b.md", "1")]⟩,
            ⟨"c1", [("a.md", "1")]⟩], fun _ => some FileStatus.current⟩ "a.md" = ⟨"a.md", r⟩) ∧
    make_repo_path
        ⟨[⟨"c3", [("a.md", "1"), ("b.md", "2")]⟩, ⟨"c2", [("a.md", "1"), ("b.md", "1")]⟩,
          ⟨"c1", [("a.md", "1")]⟩], fun _ => some FileStatus.dirty⟩ "a.md" = ⟨"a.md", "c3"⟩ :=
  ⟨⟨rfl, by decide⟩,
    (c2_make_repo_path_last_change
        ⟨[⟨"c3", [("a.md", "1"), ("b.md", "2")]⟩, ⟨"c2", [("a.md", "1"), ("b.md", "1")]⟩,
          ⟨"c1", [("a.md", "1")]⟩], fun _ => some FileStatus.current⟩ "a.md"
        ⟨"c3", [("a.md", "1"), ("b.md", "2")]⟩ rfl).2 rfl (by decide),
    (c2_make_repo_path_last_change
        ⟨[⟨"c3", [("a.md", "1"), ("b.md", "2")]⟩, ⟨"c2", [("a.md", "1"), ("b.md", "1")]⟩,
          ⟨"c1", [("a.md", "1")]⟩], fun _ => some FileStatus.dirty⟩ "a.md"
        ⟨"c3", [("a.md", "1"), ("b.md", "2")]⟩ rfl).1 (by decide)⟩

/-! ## C6/C7 — chunker infrastructure lemmas -/

theorem pyIdx_le (len : ℕ) (i : Int) : pyIdx len i ≤ len := by
  unfold pyIdx
  split
  · exact Int.toNat_le.mpr (by omega)
  · exact min_le_right _ _

theorem pyIdx_of_nonneg_le (len : ℕ) (i : Int) (h0 : 0 ≤ i) (hle : i ≤ (len : Int)) :
    pyIdx len i = i.toNat := by
  unfold pyIdx
  rw [if_neg (by omega)]
  exact min_eq_left (Int.toNat_le.mpr hle)

theorem occursAt_trans {u t s : List Char} {i j : ℕ}
    (h1 : occursAt u t i) (h2 : occursAt t s j) : occursAt u s (j + i) := by
  obtain ⟨p1, q1, ht, hp1⟩ := h1
  obtain ⟨p2, q2, hs, hp2⟩ := h2
  refine ⟨p2 ++ p1, q1 ++ q2, ?_, ?_⟩
  · rw [hs, ht]
    simp [List.append_assoc]
  · simp [hp1, hp2]

theorem occursAt_take {t s : List Char} {i : ℕ} (n : ℕ) (h : occursAt t s i) :
    occursAt (t.take n) s i := by
  obtain ⟨p, q, hs, hp⟩ := h
  refine ⟨p, t.drop n ++ q, ?_, hp⟩
  rw [hs]
  conv_lhs => rw [← List.take_append_drop n t]
  simp only [List.append_assoc]

theorem pyStrip_occursAt (s : List Char) : ∃ a, occursAt (pyStrip s) s a := by
  refine ⟨(s.takeWhile isPySpace).length,
    s.takeWhile isPySpace,
    ((s.dropWhile isPySpace).reverse.takeWhile isPySpace).reverse, ?_, rfl⟩
  have h1 : s.dropWhile isPySpace =
      pyStrip s ++ ((s.dropWhile isPySpace).reverse.takeWhile isPySpace).reverse := by
    conv_lhs => rw [← List.reverse_reverse (s.dropWhile isPySpace)]
    conv_lhs =>
      rw [← List.takeWhile_append_dropWhile (p := isPySpace)
        (l := (s.dropWhile isPySpace).reverse)]
    rw [List.reverse_append]
    rfl
  conv_lhs => rw [← List.takeWhile_append_dropWhile (p := isPySpace) (l := s), h1]
  simp [List.append_assoc]

theorem pySlice_occursAt (s : List Char) (a b : Int) :
    occursAt (pySlice s a b) s (pyIdx s.length a) := by
  refine ⟨s.take (pyIdx s.length a),
    (s.drop (pyIdx s.length a)).drop (pyIdx s.length b - pyIdx s.length a), ?_, ?_⟩
  · rw [pySlice, List.append_assoc, List.take_append_drop, List.take_append_drop]
  · rw [List.length_take]
    exact min_eq_left (pyIdx_le _ _)

theorem joinLines_cons_ne (l : List Char) (ls : List (List Char)) (h : ls ≠ []) :
    joinLines (l :: ls) = l ++ '\n' :: joinLines ls := by
  cases ls with
  | nil => exact absurd rfl h
  | cons x xs => rfl

theorem joinLines_append (a b : List (List Char)) (hb : b ≠ []) :
    joinLines (a ++ b) =
      (if a.isEmpty then [] else joinLines a ++ ['\n']) ++ joinLines b := by
  induction a with
  | nil => simp
  | cons x a' ih =>
    have hab : a' ++ b ≠ [] := fun hcon => hb (List.append_eq_nil.mp hcon).2
    rw [List.cons_append, joinLines_cons_ne _ _ hab, ih]
    cases a' with
    | nil => simp [joinLines]
    | cons y ys =>
      rw [joinLines_cons_ne x (y :: ys) (by simp)]
      simp [List.append_assoc]

theorem pySplit_ne_nil (s : List Char) : pySplit s ≠ [] := by
  induction s with
  | nil => intro h; simp [pySplit] at h
  | cons c rest ih =>
    intro h
    simp only [pySplit] at h
    by_cases hc : c = '\n'
    · rw [if_pos hc] at h
      simp at h
    · rw [if_neg hc] at h
      cases hps : pySplit rest with
      | nil => rw [hps] at h; simp at h
      | cons l ls => rw [hps] at h; simp at h

theorem joinLines_pySplit (s : List Char) : joinLines (pySplit s) = s := by
  induction s with
  | nil => rfl
  | cons c rest ih =>
    simp only [pySplit]
    by_cases hc : c = '\n'
    · rw [if_pos hc, joinLines_cons_ne _ _ (pySplit_ne_nil rest), ih, hc]
      rfl
    · rw [if_neg hc]
      cases hps : pySplit rest with
      | nil => exact absurd hps (pySplit_ne_nil rest)
      | cons l ls =>
        rw [hps] at ih
        cases ls with
        | nil =>
          simp only [joinLines] at ih ⊢
          rw [ih]
        | cons l2 ls2 =>
          rw [joinLines_cons_ne _ _ (by simp)] at ih
          rw [joinLines_cons_ne _ _ (by simp), ← ih]
          rfl

theorem splitLoop_succ (maxC ovC : ℕ) (sec t : List Char) (so : ℕ) (n : ℕ) (pos : Int) :
    splitLoop maxC ovC sec t so (n + 1) pos =
      if pos < (t.length : Int) then
        match splitLoop maxC ovC sec t so n (nextPosF maxC ovC t pos) with
        | none => none
        | some cs => some (⟨pyStrip (cutF maxC t pos).1, sec, (so : Int) + pos⟩ :: cs)
      else some [] := rfl

theorem nextPosF_ge (maxC ovC : ℕ) (hmax : 1 ≤ maxC) (hov : ovC ≤ maxC / 2)
    (t : List Char) (pos : Int) (hpos : pos < (t.length : Int)) :
    pos + 1 ≤ nextPosF maxC ovC t pos := by
  have hq : ((maxC / 2 : ℕ) : Int) = (maxC : Int) / 2 := by omega
  have hdiv : maxC / 2 < maxC := Nat.div_lt_self (by omega) (by omega)
  unfold nextPosF cutF
  by_cases hend : pos + (maxC : Int) < (t.length : Int)
  · rw [if_pos hend]
    by_cases hlb : (maxC : Int) / 2 <
        max (rfindChar (pySlice t pos (pos + (maxC : Int))) ' ')
          (rfindChar (pySlice t pos (pos + (maxC : Int))) '\n')
    · rw [if_pos hlb]
      rw [← hq] at hlb
      split
      · omega
      · omega
    · rw [if_neg hlb]
      split
      · omega
      · omega
  · rw [if_neg hend]
    rw [if_neg hend]
    omega

theorem splitLoop_isSome_of_small_overlap (maxC ovC : ℕ) (hmax : 1 ≤ maxC)
    (hov : ovC ≤ maxC / 2) (sec t : List Char) (so : ℕ) :
    ∀ (fuel : ℕ) (pos : Int), 1 ≤ fuel → (t.length : Int) < pos + fuel →
      (splitLoop maxC ovC sec t so fuel pos).isSome := by
  intro fuel
  induction fuel with
  | zero => intro pos h1; omega
  | succ n ih =>
    intro pos _ hlen
    rw [splitLoop_succ]
    by_cases hpos : pos < (t.length : Int)
    · rw [if_pos hpos]
      have hnext := nextPosF_ge maxC ovC hmax hov t pos hpos
      have h1n : 1 ≤ n := by omega
      have h2n : (t.length : Int) < nextPosF maxC ovC t pos + n := by omega
      obtain ⟨cs, hcs⟩ := Option.isSome_iff_exists.mp (ih (nextPosF maxC ovC t pos) h1n h2n)
      rw [hcs]
      simp
    · rw [if_neg hpos]
      simp

theorem split_if_needed_isSome (maxC ovC : ℕ) (hmax : 1 ≤ maxC) (hov : ovC ≤ maxC / 2)
    (stem : List Char) (stack textLines : List (List Char)) (so : ℕ) :
    (split_if_needed maxC ovC stem stack textLines so).isSome := by
  by_cases hlen : (pyStrip (joinLines textLines)).length ≤ maxC
  · simp [split_if_needed, hlen]
  · have h := splitLoop_isSome_of_small_overlap maxC ovC hmax hov
      (if stack.isEmpty then stem else joinSep [' ', '/', ' '] stack)
      (pyStrip (joinLines textLines)) so ((pyStrip (joinLines textLines)).length + 2) 0
      (by omega) (by omega)
    simpa [split_if_needed, hlen] using h

theorem chunkGo_isSome (maxC ovC : ℕ) (hmax : 1 ≤ maxC) (hov : ovC ≤ maxC / 2)
    (stem : List Char) :
    ∀ (lines sec ct : List (List Char)) (chunkStart offset : ℕ),
      (chunkGo maxC ovC stem lines sec ct chunkStart offset).isSome := by
  intro lines
  induction lines with
  | nil =>
    intro sec ct chunkStart offset
    simp only [chunkGo]
    split
    · exact split_if_needed_isSome maxC ovC hmax hov stem sec ct chunkStart
    · simp
  | cons line rest ih =>
    intro sec ct chunkStart offset
    simp only [chunkGo]
    cases hm : headerMatch line with
    | some kg =>
      simp only [hm]
      by_cases hb : anyNonBlank ct = true
      · obtain ⟨cs, hcs⟩ := Option.isSome_iff_exists.mp
          (split_if_needed_isSome maxC ovC hmax hov stem sec ct chunkStart)
        rw [if_pos hb, hcs]
        obtain ⟨cs2, hcs2⟩ := Option.isSome_iff_exists.mp
          (ih (sec.take (kg.1 - 1) ++ [pyStrip kg.2]) [] offset (offset + line.length + 1))
        rw [hcs2]
        simp
      · rw [if_neg hb]
        obtain ⟨cs2, hcs2⟩ := Option.isSome_iff_exists.mp
          (ih (sec.take (kg.1 - 1) ++ [pyStrip kg.2]) [] offset (offset + line.length + 1))
        rw [hcs2]
        simp
    | none =>
      simp only [hm]
      exact ih sec (ct ++ [line]) chunkStart (offset + line.length + 1)

/-- C7 (amended): whenever `overlap_chars ≤ max_chunk_chars / 2` (which the
default parameters `1024`/`200` satisfy), chunking terminates and returns a
finite chunk sequence for every document. -/
theorem c7_chunk_terminates (maxC ovC : ℕ) (hmax : 1 ≤ maxC) (hov : ovC ≤ maxC / 2)
    (stem content : List Char) : (chunk maxC ovC stem content).isSome :=
  chunkGo_isSome maxC ovC hmax hov stem (pySplit content) [] [] 0 0

/-- C7 witness: termination at the default parameters on a concrete
document. -/
theorem c7_chunk_terminates_witness :
    1 ≤ 1024 ∧ 200 ≤ 1024 / 2 ∧
    (chunk 1024 200 (lchars "n") (lchars "# T\n\nBody text.")).isSome :=
  ⟨by decide, by decide,
    c7_chunk_terminates 1024 200 (by decide) (by decide) (lchars "n")
      (lchars "# T\n\nBody text.")⟩

/-- The splitting loop really diverges on the C7 counterexample: with
`max_chunk_chars = 1` and `overlap_chars = 1` the cursor stays at `0`
forever (`end_pos - overlap_chars = 1 - 1 = 0`), so no amount of fuel makes
the loop finish. -/
theorem splitLoop_fixpoint_diverges :
    ∀ fuel : ℕ, splitLoop 1 1 (lchars "H") (lchars "ab") 0 fuel 0 = none := by
  intro fuel
  induction fuel with
  | zero => rfl
  | succ n ih =>
    rw [splitLoop_succ, (by decide : nextPosF 1 1 (lchars "ab") 0 = 0), ih]
    rfl

/-- C7 counterexample: with `max_chunk_chars = 1`, `overlap_chars = 1` the
size-splitting loop never advances its cursor, so `chunk` does not terminate
on a two-character section (`none` marks the diverging loop; see
`splitLoop_fixpoint_diverges`). -/
theorem c7_counterexample_no_advance :
    chunk 1 1 (lchars "n") (lchars "# H\nab") = none := by
  decide

theorem pySlice_zero (s : List Char) (b : Int) : pySlice s 0 b = s.take (pyIdx s.length b) := by
  simp [pySlice, pyIdx]

theorem cutF_fst_eq_take (maxC : ℕ) (t : List Char) (pos : Int) :
    ∃ n, (cutF maxC t pos).1 = (pySlice t pos (pos + (maxC : Int))).take n := by
  unfold cutF
  by_cases hend : pos + (maxC : Int) < (t.length : Int)
  · rw [if_pos hend]
    by_cases hlb : (maxC : Int) / 2 <
        max (rfindChar (pySlice t pos (pos + (maxC : Int))) ' ')
          (rfindChar (pySlice t pos (pos + (maxC : Int))) '\n')
    · rw [if_pos hlb]
      exact ⟨_, pySlice_zero _ _⟩
    · rw [if_neg hlb]
      exact ⟨(pySlice t pos (pos + (maxC : Int))).length, (List.take_length _).symm⟩
  · rw [if_neg hend]
    exact ⟨(pySlice t pos (pos + (maxC : Int))).length, (List.take_length _).symm⟩

theorem splitLoop_sound (maxC ovC : ℕ) (hmax : 1 ≤ maxC) (hov : ovC ≤ maxC / 2)
    (sec t content : List Char) (so tOff : ℕ)
    (hocc : occursAt t content tOff) (hso : so ≤ tOff) :
    ∀ (fuel : ℕ) (pos : Int) (cs : List Chunk), 0 ≤ pos →
      splitLoop maxC ovC sec t so fuel pos = some cs →
      ∀ c ∈ cs, ∃ i : ℕ, c.offset ≤ (i : Int) ∧ occursAt c.text content i := by
  intro fuel
  induction fuel with
  | zero => intro pos cs _ h; simp [splitLoop] at h
  | succ n ih =>
    intro pos cs hpos0 heq
    rw [splitLoop_succ] at heq
    by_cases hpos : pos < (t.length : Int)
    · rw [if_pos hpos] at heq
      cases hrec : splitLoop maxC ovC sec t so n (nextPosF maxC ovC t pos) with
      | none => rw [hrec] at heq; simp at heq
      | some cs' =>
        rw [hrec] at heq
        simp only [Option.some.injEq] at heq
        subst heq
        intro c hc
        rcases List.mem_cons.mp hc with rfl | hmem
        · obtain ⟨nn, hcut⟩ := cutF_fst_eq_take maxC t pos
          have hsl : occursAt (pySlice t pos (pos + (maxC : Int))) t (pyIdx t.length pos) :=
            pySlice_occursAt t pos _
          have hidx : pyIdx t.length pos = pos.toNat :=
            pyIdx_of_nonneg_le _ _ hpos0 (le_of_lt hpos)
          obtain ⟨a2, ha2⟩ := pyStrip_occursAt (cutF maxC t pos).1
          have h1 : occursAt (cutF maxC t pos).1 t pos.toNat := by
            rw [hcut, ← hidx]
            exact occursAt_take nn hsl
          have h2 : occursAt (pyStrip (cutF maxC t pos).1) t (pos.toNat + a2) :=
            occursAt_trans ha2 h1
          have h3 : occursAt (pyStrip (cutF maxC t pos).1) content (tOff + (pos.toNat + a2)) :=
            occursAt_trans h2 hocc
          refine ⟨tOff + (pos.toNat + a2), ?_, h3⟩
          have hcast : ((pos.toNat : ℕ) : Int) = pos := Int.toNat_of_nonneg hpos0
          show (so : Int) + pos ≤ _
          push_cast
          omega
        · have hn0 : 0 ≤ nextPosF maxC ovC t pos := by
            have := nextPosF_ge maxC ovC hmax hov t pos hpos
            omega
          exact ih (nextPosF maxC ovC t pos) cs' hn0 hrec c hmem
    · rw [if_neg hpos] at heq
      simp only [Option.some.injEq] at heq
      subst heq
      intro c hc
      simp at hc

theorem split_if_needed_sound (maxC ovC : ℕ) (hmax : 1 ≤ maxC) (hov : ovC ≤ maxC / 2)
    (stem : List Char) (stack textLines : List (List Char)) (so : ℕ)
    (content : List Char) (tStart : ℕ)
    (hocc : occursAt (joinLines textLines) content tStart) (hso : so ≤ tStart)
    (cs : List Chunk) (heq : split_if_needed maxC ovC stem stack textLines so = some cs) :
    ∀ c ∈ cs, ∃ i : ℕ, c.offset ≤ (i : Int) ∧ occursAt c.text content i := by
  obtain ⟨a, ha⟩ := pyStrip_occursAt (joinLines textLines)
  have hoccCT : occursAt (pyStrip (joinLines textLines)) content (tStart + a) :=
    occursAt_trans ha hocc
  by_cases hlen : (pyStrip (joinLines textLines)).length ≤ maxC
  · have heq2 : [(⟨pyStrip (joinLines textLines),
        if stack.isEmpty then stem else joinSep [' ', '/', ' '] stack, (so : Int)⟩ : Chunk)] =
        cs := by
      simpa [split_if_needed, hlen] using heq
    subst heq2
    intro c hc
    rcases List.mem_singleton.mp hc with rfl
    refine ⟨tStart + a, ?_, hoccCT⟩
    show (so : Int) ≤ _
    push_cast
    omega
  · have heq2 : splitLoop maxC ovC
        (if stack.isEmpty then stem else joinSep [' ', '/', ' '] stack)
        (pyStrip (joinLines textLines)) so ((pyStrip (joinLines textLines)).length + 2) 0 =
        some cs := by
      simpa [split_if_needed, hlen] using heq
    exact splitLoop_sound maxC ovC hmax hov _ _ content so (tStart + a) hoccCT (by omega) _ 0 cs
      (le_refl 0) heq2

theorem chunkGo_sound (maxC ovC : ℕ) (hmax : 1 ≤ maxC) (hov : ovC ≤ maxC / 2)
    (stem content : List Char) :
    ∀ (lines ct sec : List (List Char)) (chunkStart offset : ℕ) (pre : List Char),
      content = pre ++ joinLines (ct ++ lines) →
      chunkStart ≤ pre.length →
      (lines = [] ∨
        offset = pre.length + (if ct.isEmpty then 0 else (joinLines ct).length + 1)) →
      ∀ cs : List Chunk,
        chunkGo maxC ovC stem lines sec ct chunkStart offset = some cs →
        ∀ c ∈ cs, ∃ i : ℕ, c.offset ≤ (i : Int) ∧ occursAt c.text content i := by
  intro lines
  induction lines with
  | nil =>
    intro ct sec chunkStart offset pre hA hB _hC cs heq c hc
    rw [List.append_nil] at hA
    simp only [chunkGo] at heq
    by_cases hb : anyNonBlank ct = true
    · rw [if_pos hb] at heq
      have hocc : occursAt (joinLines ct) content pre.length :=
        ⟨pre, [], by simpa using hA, rfl⟩
      exact split_if_needed_sound maxC ovC hmax hov stem sec ct chunkStart content pre.length
        hocc hB cs heq c hc
    · rw [if_neg hb] at heq
      simp only [Option.some.injEq] at heq
      subst heq
      simp at hc
  | cons line rest ih =>
    intro ct sec chunkStart offset pre hA hB hC cs heq c hc
    have hoff : offset = pre.length + (if ct.isEmpty then 0 else (joinLines ct).length + 1) := by
      rcases hC with h | h
      · exact absurd h (by simp)
      · exact h
    simp only [chunkGo] at heq
    cases hm : headerMatch line with
    | none =>
      rw [hm] at heq
      refine ih (ct ++ [line]) sec chunkStart (offset + line.length + 1) pre ?_ hB
        (Or.inr ?_) cs heq c hc
      · rw [hA, List.append_assoc, List.singleton_append]
      · rw [hoff]
        have h1 : (ct ++ [line]).isEmpty = false := by
          cases ct <;> rfl
        have h2 : (joinLines (ct ++ [line])).length =
            (if ct.isEmpty then 0 else (joinLines ct).length + 1) + line.length := by
          by_cases hct : ct.isEmpty
          · have hct' : ct = [] := List.isEmpty_iff.mp hct
            subst hct'
            simp [joinLines, hct]
          · have hctE : ct.isEmpty = false := by
              cases hcc : ct.isEmpty
              · rfl
              · exact absurd hcc hct
            rw [joinLines_append ct [line] (by simp)]
            simp [hctE, joinLines]
            omega
        rw [h1, h2]
        by_cases hct : ct.isEmpty <;> simp [hct] <;> omega
    | some kg =>
      rw [hm] at heq
      simp only [] at heq
      obtain ⟨cs0, hcs0, hsound0⟩ :
          ∃ cs0,
            (if anyNonBlank ct = true then
              split_if_needed maxC ovC stem sec ct chunkStart
            else some []) = some cs0 ∧
            ∀ c ∈ cs0, ∃ i : ℕ, c.offset ≤ (i : Int) ∧ occursAt c.text content i := by
        by_cases hb : anyNonBlank ct = true
        · have hctne : ct ≠ [] := by
            intro hcon
            rw [hcon] at hb
            simp [anyNonBlank] at hb
          have hctE : ct.isEmpty = false := by
            cases hct2 : ct.isEmpty
            · rfl
            · exact absurd (List.isEmpty_iff.mp hct2) hctne
          have hdec : joinLines (ct ++ line :: rest) =
              joinLines ct ++ ['\n'] ++ joinLines (line :: rest) := by
            rw [joinLines_append ct (line :: rest) (by simp), hctE]
            simp
          have hocc : occursAt (joinLines ct) content pre.length := by
            refine ⟨pre, ['\n'] ++ joinLines (line :: rest), ?_, rfl⟩
            rw [hA, hdec]
            simp [List.append_assoc]
          cases hsp : split_if_needed maxC ovC stem sec ct chunkStart with
          | none =>
            rw [if_pos hb, hsp] at heq
            exact absurd heq (by simp)
          | some cs0 =>
            refine ⟨cs0, by rw [if_pos hb], ?_⟩
            exact split_if_needed_sound maxC ovC hmax hov stem sec ct chunkStart content
              pre.length hocc hB cs0 hsp
        · exact ⟨[], by rw [if_neg hb], by intro c hc; simp at hc⟩
      rw [hcs0] at heq
      cases rest with
      | nil =>
        have hgo : chunkGo maxC ovC stem [] (sec.take (kg.1 - 1) ++ [pyStrip kg.2]) []
            offset (offset + line.length + 1) = some [] := by
          simp [chunkGo, anyNonBlank]
        rw [hgo] at heq
        simp only [Option.some.injEq] at heq
        subst heq
        rw [List.append_nil] at hc
        exact hsound0 c hc
      | cons l2 r2 =>
        cases hrec : chunkGo maxC ovC stem (l2 :: r2) (sec.take (kg.1 - 1) ++ [pyStrip kg.2])
            [] offset (offset + line.length + 1) with
        | none => rw [hrec] at heq; simp at heq
        | some cs2 =>
          rw [hrec] at heq
          simp only [Option.some.injEq] at heq
          subst heq
          rcases List.mem_append.mp hc with hmem | hmem
          · exact hsound0 c hmem
          · have hctlen :
                (if ct.isEmpty then ([] : List Char) else joinLines ct ++ ['\n']).length =
                  if ct.isEmpty then 0 else (joinLines ct).length + 1 := by
              by_cases hct : ct.isEmpty
              · simp [hct]
              · simp [hct]
            refine ih [] (sec.take (kg.1 - 1) ++ [pyStrip kg.2]) offset
              (offset + line.length + 1)
              (pre ++ (if ct.isEmpty then [] else joinLines ct ++ ['\n']) ++ line ++ ['\n'])
              ?_ ?_ (Or.inr ?_) cs2 hrec c hmem
            · rw [hA, joinLines_append ct (line :: l2 :: r2) (by simp),
                joinLines_cons_ne line (l2 :: r2) (by simp)]
              simp [List.append_assoc]
            · simp only [List.length_append, hctlen, List.length_cons, List.length_nil]
              omega
            · simp only [List.length_append, hctlen, List.length_cons, List.length_nil,
                List.isEmpty_nil, if_pos]
              omega

/-- C6 counterexample: on `"# H\nabcd efgh ijkl"` with `max_chunk_chars = 8`,
`overlap_chars = 0`, the second sub-chunk has text `"h ijkl"` and offset `8`,
but the content from offset `8` onward is `" efgh ijkl"` — it neither starts
with the chunk's text nor with any source region stripping to it: a
sub-chunk's offset is the section start plus the cursor position in the
*stripped* section body, not the position of the sub-chunk's source text. -/
theorem c6_counterexample_subchunk_offset :
    chunk 8 0 (lchars "n") (lchars "# H\nabcd efgh ijkl") =
      some [⟨lchars "abcd efg", lchars "H", 0⟩, ⟨lchars "h ijkl", lchars "H", 8⟩] ∧
    chunkSourceFaithful (lchars "# H\nabcd efgh ijkl") ⟨lchars "h ijkl", lchars "H", 8⟩ =
      false := by
  decide

/-- C6 (amended): for every document and every produced chunk (sub-chunks
included), the chunk's text occurs verbatim in the document at a position no
earlier than the chunk's offset; the offset marks the start of the chunk's
section (its header line, or the document start), so the text itself may
begin later — and for sub-chunks the recorded offset need not point at the
sub-chunk's own source text. -/
theorem c6_chunk_text_occurs_at_or_after_offset (maxC ovC : ℕ) (hmax : 1 ≤ maxC)
    (hov : ovC ≤ maxC / 2) (stem content : List Char) (cs : List Chunk)
    (hcs : chunk maxC ovC stem content = some cs) (c : Chunk) (hc : c ∈ cs) :
    ∃ i : ℕ, c.offset ≤ (i : Int) ∧ occursAt c.text content i := by
  refine chunkGo_sound maxC ovC hmax hov stem content (pySplit content) [] [] 0 0 []
    ?_ (le_refl 0) (Or.inr ?_) cs hcs c hc
  · simpa using (joinLines_pySplit content).symm
  · simp

/-- C6 witness: the amended theorem applied to the counterexample document
and its second sub-chunk. -/
theorem c6_chunk_text_occurs_witness :
    (1 ≤ 8 ∧ 0 ≤ 8 / 2 ∧
      chunk 8 0 (lchars "n") (lchars "# H\nabcd efgh ijkl") =
        some [⟨lchars "abcd efg", lchars "H", 0⟩, ⟨lchars "h ijkl", lchars "H", 8⟩] ∧
      (⟨lchars "h ijkl", lchars "H", 8⟩ : Chunk) ∈
        [(⟨lchars "abcd efg", lchars "H", 0⟩ : Chunk), ⟨lchars "h ijkl", lchars "H", 8⟩]) ∧
    ∃ i : ℕ, ((⟨lchars "h ijkl", lchars "H", 8⟩ : Chunk).offset ≤ (i : Int) ∧
      occursAt (⟨lchars "h ijkl", lchars "H", 8⟩ : Chunk).text
        (lchars "# H\nabcd efgh ijkl") i) :=
  ⟨⟨by decide, by decide, by decide, by decide⟩,
    c6_chunk_text_occurs_at_or_after_offset 8 0 (by decide) (by decide) (lchars "n")
      (lchars "# H\nabcd efgh ijkl")
      [⟨lchars "abcd efg", lchars "H", 0⟩, ⟨lchars "h ijkl", lchars "H", 8⟩] (by decide)
      ⟨lchars "h ijkl", lchars "H", 8⟩ (by decide)⟩
